import Mathlib

/-!
# MessageQueue / TileQueue (loolwsd/MessageQueue.hpp)

A shallow embedding of the two queue classes declared in `MessageQueue.hpp`.

* `std::deque<T>` is a `List T` (front = head of the list).
* `std::map<int, CursorPosition>` is a key-sorted association list; the map
  operations below assume, but do not require, that their input is sorted and
  duplicate free. Separate lemmas show that they keep it so.
* `int` is `Int`: the code only compares and copies the integers it is given.
* The mutex and the condition variable are not modelled: every operation is
  the atomic state transformer it is under the lock.
-/

namespace MessageQueueModel

/-- A message: `typedef std::vector<char> Payload`, a sequence of bytes. Each
`char` is carried as a natural number; the queue copies and compares them and
never computes with them. -/
abbrev Payload := List Nat

/-- The class `TileQueue::CursorPosition`. -/
structure CursorPosition where
  Part : Int
  X : Int
  Y : Int
  Width : Int
  Height : Int
deriving DecidableEq, Repr

/-- The type `std::map<int, CursorPosition>`: entries in increasing key order. -/
abbrev CursorMap := List (Int × CursorPosition)

namespace CursorMap

/-- The keys of the map, in iteration order. -/
def keys (m : CursorMap) : List Int := m.map Prod.fst

/-- The call `m.find(k)`: the mapped value, `none` standing for `m.end()`. -/
def find : CursorMap → Int → Option CursorPosition
  | [], _ => none
  | (k', v') :: rest, k => if k' = k then some v' else find rest k

/-- The assignment `it->second = v` for the iterator `it = m.find(k)`. -/
def assign : CursorMap → Int → CursorPosition → CursorMap
  | [], _, _ => []
  | (k', v') :: rest, k, v =>
    if k' = k then (k', v) :: rest else (k', v') :: assign rest k v

/-- The statement `m[k] = v` for a key that `find` did not locate: a new node
is linked in at its place in key order. -/
def insertNew : CursorMap → Int → CursorPosition → CursorMap
  | [], k, v => [(k, v)]
  | (k', v') :: rest, k, v =>
    if k < k' then (k, v) :: (k', v') :: rest else (k', v') :: insertNew rest k v

/-- The call `m.erase(k)`: unlinks the node with key `k`, if there is one. -/
def erase : CursorMap → Int → CursorMap
  | [], _ => []
  | (k', v') :: rest, k => if k' = k then rest else (k', v') :: erase rest k

end CursorMap

/-- The class `MessageQueue`: its protected member `_queue`. -/
structure MessageQueue where
  _queue : List Payload
deriving DecidableEq, Repr

/-- The class `TileQueue : public MessageQueue` with its two private members. -/
structure TileQueue extends MessageQueue where
  _cursorPositions : CursorMap
  _viewOrder : List Int
deriving DecidableEq, Repr

namespace TileQueue

/-- A freshly constructed `TileQueue`: all three containers are empty. -/
def empty : TileQueue :=
  { _queue := [], _cursorPositions := [], _viewOrder := [] }

/-- The member function `TileQueue::updateCursorPosition`. -/
def updateCursorPosition (q : TileQueue) (viewId part x y width height : Int) : TileQueue :=
  let cursorPosition : CursorPosition := ⟨part, x, y, width, height⟩
  let cursorPositions :=
    match CursorMap.find q._cursorPositions viewId with
    | some _ => CursorMap.assign q._cursorPositions viewId cursorPosition
    | none => CursorMap.insertNew q._cursorPositions viewId cursorPosition
  -- Move to front, so the current front view becomes the second.
  let viewOrder :=
    if viewId ∈ q._viewOrder then q._viewOrder.erase viewId else q._viewOrder
  { q with _cursorPositions := cursorPositions, _viewOrder := viewId :: viewOrder }

/-- The member function `TileQueue::removeCursorPosition`. -/
def removeCursorPosition (q : TileQueue) (viewId : Int) : TileQueue :=
  let viewOrder :=
    if viewId ∈ q._viewOrder then q._viewOrder.erase viewId else q._viewOrder
  { q with _cursorPositions := CursorMap.erase q._cursorPositions viewId,
           _viewOrder := viewOrder }

/-- One call of a cursor-tracking member function. -/
inductive CursorCall where
  | update (viewId part x y width height : Int)
  | remove (viewId : Int)
deriving DecidableEq, Repr

/-- Performs one cursor-tracking call on `q`. -/
def CursorCall.run (q : TileQueue) : CursorCall → TileQueue
  | .update viewId part x y width height => updateCursorPosition q viewId part x y width height
  | .remove viewId => removeCursorPosition q viewId

/-- The state reached from `q` by performing `calls` from left to right. -/
def runCalls (q : TileQueue) (calls : List CursorCall) : TileQueue :=
  calls.foldl CursorCall.run q

/-- The state reached from the empty `TileQueue` by a sequence of
`updateCursorPosition` / `removeCursorPosition` calls. -/
def reached (calls : List CursorCall) : TileQueue := runCalls empty calls

/-- A state for the worked examples: views 3, 2 and 1 reported a cursor, in
that order, so the view order is 1, 2, 3. -/
def sampleViews : TileQueue :=
  reached [.update 3 0 0 0 5 5, .update 2 0 1 1 5 5, .update 1 0 2 2 5 5]

end TileQueue

/-- The key of a tile-update message: the originating view and the region
`(part, x, y, width, height)` named in the textual prefix of the payload. -/
structure TileKey where
  ViewId : Int
  Part : Int
  X : Int
  Y : Int
  Width : Int
  Height : Int
deriving DecidableEq, Repr

/-- Modelled from the spec: the matching rule of the priority scan is defined
out of this header; the conservative rule is "same part and same region key". -/
def sameRegion (k : TileKey) (c : CursorPosition) : Bool :=
  decide (k.Part = c.Part ∧ k.X = c.X ∧ k.Y = c.Y ∧ k.Width = c.Width ∧ k.Height = c.Height)

/-- A header classifier for the worked examples: byte `t`, then one byte each
for view id, part, x, y, width and height; any tail is ignored. Payloads of
any other shape are not tile-update messages. -/
def sampleTileKey : Payload → Option TileKey
  | 116 :: v :: p :: x :: y :: w :: h :: _ => some ⟨v, p, x, y, w, h⟩
  | _ => none

namespace MessageQueue

/-- Modelled from the spec: `MessageQueue::put_impl` is declared here and
defined elsewhere; the base insertion hook appends the payload at the tail. -/
def put_impl (q : MessageQueue) (value : Payload) : MessageQueue :=
  { _queue := q._queue ++ [value] }

/-- Modelled from the spec: `MessageQueue::get_impl` is declared here and
defined elsewhere; the base removal hook removes and returns the head. It is
only invoked on non-empty storage, so `none` stands for "not invoked". -/
def get_impl (q : MessageQueue) : Option (Payload × MessageQueue) :=
  match q._queue with
  | [] => none
  | front :: rest => some (front, { _queue := rest })

/-- Modelled from the spec: `MessageQueue::put` (declared only) inserts through
the insertion hook and signals the consumer; it never blocks. -/
def put (q : MessageQueue) (value : Payload) : MessageQueue := put_impl q value

/-- Modelled from the spec: `MessageQueue::get` (declared only) waits while the
queue is empty, then dequeues through the removal hook. `none` stands for a
call that is still waiting. -/
def get (q : MessageQueue) : Option (Payload × MessageQueue) :=
  if q._queue.isEmpty then none else get_impl q

/-- Modelled from the spec: `MessageQueue::clear` (declared only) empties the
storage. -/
def clear (_q : MessageQueue) : MessageQueue := { _queue := [] }

/-- Modelled from the spec: `MessageQueue::remove_if` (declared only) removes
every entry for which the predicate holds and keeps the order of the rest. -/
def remove_if (q : MessageQueue) (pred : Payload → Bool) : MessageQueue :=
  { _queue := q._queue.filter (fun p => !pred p) }

/-- The calls `put(p)` for each `p` of `values`, in order. -/
def putAll (q : MessageQueue) (values : List Payload) : MessageQueue :=
  values.foldl put q

/-- The results of `n` consecutive `get` calls and the state they leave;
`none` when one of them finds the queue empty and waits. -/
def getN : Nat → MessageQueue → Option (List Payload × MessageQueue)
  | 0, q => some ([], q)
  | n + 1, q =>
    match get q with
    | none => none
    | some (p, q') =>
      match getN n q' with
      | none => none
      | some (ps, q'') => some (p :: ps, q'')

end MessageQueue

namespace TileQueue

/-- Modelled from the spec: `TileQueue::removeDuplicate` is declared here and
defined elsewhere. Every queued tile-update message with the same
(view id, part, x, y, width, height) key as `tileMsg` is dropped. -/
def removeDuplicate (tileKey : Payload → Option TileKey) (q : TileQueue)
    (tileMsg : Payload) : TileQueue :=
  match tileKey tileMsg with
  | none => q
  | some key => { q with _queue := q._queue.filter (fun old => decide (tileKey old ≠ some key)) }

/-- Modelled from the spec: `TileQueue::put_impl` is declared here and defined
elsewhere. A tile-update payload first removes what it supersedes; then the
payload is appended at the tail by the base hook. -/
def put_impl (tileKey : Payload → Option TileKey) (q : TileQueue) (value : Payload) : TileQueue :=
  let q' := if (tileKey value).isSome then removeDuplicate tileKey q value else q
  { q' with toMessageQueue := MessageQueue.put_impl q'.toMessageQueue value }

/-- Whether `msg` is a tile-update message whose region matches the cursor
rectangle `c`. -/
def underlies (tileKey : Payload → Option TileKey) (regionMatch : TileKey → CursorPosition → Bool)
    (c : CursorPosition) (msg : Payload) : Bool :=
  match tileKey msg with
  | some k => regionMatch k c
  | none => false

/-- Modelled from the spec: `TileQueue::priority` is declared here ("check if
the given tile msg underlies a cursor") and defined elsewhere: whether
`tileMsg` is a tile-update message that matches the cursor position of some
view of the view order. -/
def priority (tileKey : Payload → Option TileKey) (regionMatch : TileKey → CursorPosition → Bool)
    (q : TileQueue) (tileMsg : Payload) : Bool :=
  q._viewOrder.any fun view =>
    match CursorMap.find q._cursorPositions view with
    | none => false
    | some c => underlies tileKey regionMatch c tileMsg

/-- Modelled from the spec: the priority scan of the removal hook. The views
are visited from most to least recently active; for each view that has a
cursor position the queue is searched, in queue order, for a tile-update
message matching it. The result is the queue index of the first hit. -/
def prioritized (tileKey : Payload → Option TileKey) (regionMatch : TileKey → CursorPosition → Bool)
    (q : TileQueue) : List Int → Option Nat
  | [] => none
  | view :: views =>
    match CursorMap.find q._cursorPositions view with
    | none => prioritized tileKey regionMatch q views
    | some c =>
      match q._queue.findIdx? (underlies tileKey regionMatch c) with
      | some i => some i
      | none => prioritized tileKey regionMatch q views

/-- Modelled from the spec: `TileQueue::get_impl` is declared here and defined
elsewhere. If a tile-update message is queued and the priority scan finds a
match, that message is removed and returned; otherwise the head is. It is only
invoked on non-empty storage, so `none` stands for "not invoked". -/
def get_impl (tileKey : Payload → Option TileKey) (regionMatch : TileKey → CursorPosition → Bool)
    (q : TileQueue) : Option (Payload × TileQueue) :=
  match q._queue with
  | [] => none
  | front :: rest =>
    let fifo : Option (Payload × TileQueue) := some (front, { q with _queue := rest })
    if q._queue.any (fun p => (tileKey p).isSome) then
      match prioritized tileKey regionMatch q q._viewOrder with
      | none => fifo
      | some i =>
        match q._queue.get? i with
        | none => fifo
        | some msg => some (msg, { q with _queue := q._queue.eraseIdx i })
    else fifo

/-- Modelled from the spec: `put` inherited from `MessageQueue`, dispatching to
the overriding insertion hook. -/
def put (tileKey : Payload → Option TileKey) (q : TileQueue) (value : Payload) : TileQueue :=
  put_impl tileKey q value

/-- Modelled from the spec: `get` inherited from `MessageQueue`, dispatching to
the overriding removal hook; `none` stands for a call that is still waiting
on an empty queue. -/
def get (tileKey : Payload → Option TileKey) (regionMatch : TileKey → CursorPosition → Bool)
    (q : TileQueue) : Option (Payload × TileQueue) :=
  if q._queue.isEmpty then none else get_impl tileKey regionMatch q

/-- The calls `put(p)` for each `p` of `values`, in order. -/
def putAll (tileKey : Payload → Option TileKey) (q : TileQueue) (values : List Payload) :
    TileQueue :=
  values.foldl (put tileKey) q

/-- The results of `n` consecutive `get` calls and the state they leave;
`none` when one of them finds the queue empty and waits. -/
def getN (tileKey : Payload → Option TileKey) (regionMatch : TileKey → CursorPosition → Bool) :
    Nat → TileQueue → Option (List Payload × TileQueue)
  | 0, q => some ([], q)
  | n + 1, q =>
    match get tileKey regionMatch q with
    | none => none
    | some (p, q') =>
      match getN tileKey regionMatch n q' with
      | none => none
      | some (ps, q'') => some (p :: ps, q'')

/-- The representation invariant of the cursor tracking: the view order has no
repeated view id, the map keys are strictly increasing, and a view id is a key
of the map exactly when it is in the view order. -/
def WellFormed (q : TileQueue) : Prop :=
  q._viewOrder.Nodup ∧ (CursorMap.keys q._cursorPositions).Pairwise (· < ·) ∧
    ∀ v, v ∈ CursorMap.keys q._cursorPositions ↔ v ∈ q._viewOrder

end TileQueue

/-! ## The cursor-position map -/

namespace CursorMap

theorem find_eq_none_iff (m : CursorMap) (k : Int) : find m k = none ↔ k ∉ keys m := by
  induction m with
  | nil => simp [find, keys]
  | cons e rest ih =>
    obtain ⟨k', v'⟩ := e
    by_cases h : k' = k
    · simp [find, keys, h]
    · have h' : ¬ k = k' := fun c => h c.symm
      simpa [find, keys, h, h'] using ih

theorem find_assign_self (m : CursorMap) (k : Int) (v : CursorPosition) (h : k ∈ keys m) :
    find (assign m k v) k = some v := by
  induction m with
  | nil => simp [keys] at h
  | cons e rest ih =>
    obtain ⟨k', v'⟩ := e
    by_cases hk : k' = k
    · simp [assign, find, hk]
    · have hr : k ∈ keys rest := by
        have : k = k' ∨ k ∈ keys rest := by simpa [keys] using h
        rcases this with c | c
        · exact absurd c.symm hk
        · exact c
      simpa [assign, find, hk] using ih hr

theorem find_assign_other (m : CursorMap) (k j : Int) (v : CursorPosition) (hj : j ≠ k) :
    find (assign m k v) j = find m j := by
  induction m with
  | nil => simp [assign]
  | cons e rest ih =>
    obtain ⟨k', v'⟩ := e
    by_cases hk : k' = k
    · have hkj : ¬ k = j := fun c => hj c.symm
      simp [assign, find, hk, hkj]
    · by_cases hkj : k' = j
      · subst hkj
        simp [assign, find, hk]
      · simp [assign, find, hk, hkj, ih]

theorem find_insertNew_self (m : CursorMap) (k : Int) (v : CursorPosition) (h : k ∉ keys m) :
    find (insertNew m k v) k = some v := by
  induction m with
  | nil => simp [insertNew, find]
  | cons e rest ih =>
    obtain ⟨k', v'⟩ := e
    have h1 : ¬ k = k' ∧ k ∉ keys rest := by simpa [keys] using h
    have hk : ¬ k' = k := fun c => h1.1 c.symm
    by_cases hlt : k < k'
    · simp [insertNew, find, hlt]
    · simpa [insertNew, find, hlt, hk] using ih h1.2

theorem find_insertNew_other (m : CursorMap) (k j : Int) (v : CursorPosition) (hj : j ≠ k) :
    find (insertNew m k v) j = find m j := by
  have hkj : ¬ k = j := fun c => hj c.symm
  induction m with
  | nil => simp [insertNew, find, hkj]
  | cons e rest ih =>
    obtain ⟨k', v'⟩ := e
    by_cases hlt : k < k'
    · simp [insertNew, find, hlt, hkj]
    · by_cases hk : k' = j
      · subst hk
        simp [insertNew, find, hlt]
      · simp [insertNew, find, hlt, hk, ih]

theorem find_erase_other (m : CursorMap) (k j : Int) (hj : j ≠ k) :
    find (erase m k) j = find m j := by
  induction m with
  | nil => simp [erase]
  | cons e rest ih =>
    obtain ⟨k', v'⟩ := e
    by_cases hk : k' = k
    · have hkj : ¬ k = j := fun c => hj c.symm
      simp [erase, find, hk, hkj]
    · by_cases hkj : k' = j
      · subst hkj
        simp [erase, find, hk]
      · simp [erase, find, hk, hkj, ih]

theorem erase_of_not_mem (m : CursorMap) (k : Int) (h : k ∉ keys m) : erase m k = m := by
  induction m with
  | nil => simp [erase]
  | cons e rest ih =>
    obtain ⟨k', v'⟩ := e
    have h1 : ¬ k = k' ∧ k ∉ keys rest := by simpa [keys] using h
    have hk : ¬ k' = k := fun c => h1.1 c.symm
    simp [erase, hk, ih h1.2]

theorem keys_assign (m : CursorMap) (k : Int) (v : CursorPosition) :
    keys (assign m k v) = keys m := by
  induction m with
  | nil => simp [assign]
  | cons e rest ih =>
    obtain ⟨k', v'⟩ := e
    by_cases hk : k' = k
    · simp [assign, keys, hk]
    · have := ih
      simp only [keys] at this
      simp [assign, keys, hk, this]

theorem keys_insertNew_perm (m : CursorMap) (k : Int) (v : CursorPosition) :
    (keys (insertNew m k v)).Perm (k :: keys m) := by
  induction m with
  | nil => simp [insertNew, keys]
  | cons e rest ih =>
    obtain ⟨k', v'⟩ := e
    by_cases hlt : k < k'
    · simp [insertNew, keys, hlt]
    · have h1 : keys (insertNew ((k', v') :: rest) k v) = k' :: keys (insertNew rest k v) := by
        simp [insertNew, keys, hlt]
      have h2 : keys ((k', v') :: rest) = k' :: keys rest := by simp [keys]
      rw [h1, h2]
      exact (List.Perm.cons k' ih).trans (List.Perm.swap k k' (keys rest))

theorem keys_erase (m : CursorMap) (k : Int) : keys (erase m k) = (keys m).erase k := by
  induction m with
  | nil => simp [erase, keys]
  | cons e rest ih =>
    obtain ⟨k', v'⟩ := e
    by_cases hk : k' = k
    · simp [erase, keys, hk]
    · have := ih
      simp only [keys] at this
      simp [erase, keys, hk, List.erase_cons_tail, this]

/-- Strictly increasing keys: the representation invariant of `std::map`. -/
theorem sorted_insertNew (m : CursorMap) (k : Int) (v : CursorPosition)
    (hs : (keys m).Pairwise (· < ·)) (h : k ∉ keys m) :
    (keys (insertNew m k v)).Pairwise (· < ·) := by
  induction m with
  | nil => simp [insertNew, keys]
  | cons e rest ih =>
    obtain ⟨k', v'⟩ := e
    have h1 : ¬ k = k' ∧ k ∉ keys rest := by simpa [keys] using h
    have hs' : (∀ a ∈ keys rest, k' < a) ∧ (keys rest).Pairwise (· < ·) := by
      simpa [keys] using hs
    by_cases hlt : k < k'
    · have : keys (insertNew ((k', v') :: rest) k v) = k :: k' :: keys rest := by
        simp [insertNew, keys, hlt]
      rw [this]
      refine List.Pairwise.cons ?_ (List.Pairwise.cons hs'.1 hs'.2)
      intro a ha
      rcases List.mem_cons.mp ha with c | c
      · exact c ▸ hlt
      · exact lt_trans hlt (hs'.1 a c)
    · have hk : k' < k := lt_of_le_of_ne (not_lt.mp hlt) (fun c => h1.1 c.symm)
      have : keys (insertNew ((k', v') :: rest) k v) = k' :: keys (insertNew rest k v) := by
        simp [insertNew, keys, hlt]
      rw [this]
      refine List.Pairwise.cons ?_ (ih hs'.2 h1.2)
      intro a ha
      have : a ∈ k :: keys rest := (keys_insertNew_perm rest k v).subset ha
      rcases List.mem_cons.mp this with c | c
      · exact c ▸ hk
      · exact hs'.1 a c

end CursorMap

/-! ## Cursor tracking -/

namespace TileQueue

theorem viewOrder_update (q : TileQueue) (viewId part x y width height : Int) :
    (updateCursorPosition q viewId part x y width height)._viewOrder
      = viewId :: q._viewOrder.erase viewId := by
  by_cases h : viewId ∈ q._viewOrder
  · simp [updateCursorPosition, h]
  · simp [updateCursorPosition, h, List.erase_of_not_mem h]

theorem viewOrder_remove (q : TileQueue) (viewId : Int) :
    (removeCursorPosition q viewId)._viewOrder = q._viewOrder.erase viewId := by
  by_cases h : viewId ∈ q._viewOrder
  · simp [removeCursorPosition, h]
  · simp [removeCursorPosition, h, List.erase_of_not_mem h]

theorem queue_update (q : TileQueue) (viewId part x y width height : Int) :
    (updateCursorPosition q viewId part x y width height)._queue = q._queue := rfl

theorem queue_remove (q : TileQueue) (viewId : Int) :
    (removeCursorPosition q viewId)._queue = q._queue := rfl

theorem cursorPositions_remove (q : TileQueue) (viewId : Int) :
    (removeCursorPosition q viewId)._cursorPositions
      = CursorMap.erase q._cursorPositions viewId := rfl

theorem find_update_self (q : TileQueue) (viewId part x y width height : Int) :
    CursorMap.find (updateCursorPosition q viewId part x y width height)._cursorPositions viewId
      = some ⟨part, x, y, width, height⟩ := by
  cases hf : CursorMap.find q._cursorPositions viewId with
  | none =>
    have hk := (CursorMap.find_eq_none_iff _ _).mp hf
    simp only [updateCursorPosition, hf]
    exact CursorMap.find_insertNew_self _ _ _ hk
  | some c =>
    have hk : viewId ∈ CursorMap.keys q._cursorPositions := by
      by_contra hn
      rw [(CursorMap.find_eq_none_iff _ _).mpr hn] at hf
      exact Option.noConfusion hf
    simp only [updateCursorPosition, hf]
    exact CursorMap.find_assign_self _ _ _ hk

theorem find_update_other (q : TileQueue) (viewId part x y width height j : Int)
    (hj : j ≠ viewId) :
    CursorMap.find (updateCursorPosition q viewId part x y width height)._cursorPositions j
      = CursorMap.find q._cursorPositions j := by
  cases hf : CursorMap.find q._cursorPositions viewId with
  | none =>
    simp only [updateCursorPosition, hf]
    exact CursorMap.find_insertNew_other _ _ _ _ hj
  | some c =>
    simp only [updateCursorPosition, hf]
    exact CursorMap.find_assign_other _ _ _ _ hj

theorem wellFormed_empty : WellFormed empty := by
  simp [WellFormed, empty, CursorMap.keys]

theorem wellFormed_update (q : TileQueue) (viewId part x y width height : Int)
    (h : WellFormed q) : WellFormed (updateCursorPosition q viewId part x y width height) := by
  obtain ⟨hnd, hs, hiff⟩ := h
  refine ⟨?_, ?_, ?_⟩
  · rw [viewOrder_update]
    refine List.nodup_cons.mpr ⟨?_, hnd.erase viewId⟩
    intro hm
    exact ((hnd.mem_erase_iff).mp hm).1 rfl
  · cases hf : CursorMap.find q._cursorPositions viewId with
    | none =>
      have hk := (CursorMap.find_eq_none_iff _ _).mp hf
      simp only [updateCursorPosition, hf]
      exact CursorMap.sorted_insertNew _ _ _ hs hk
    | some c =>
      simp only [updateCursorPosition, hf]
      rw [CursorMap.keys_assign]
      exact hs
  · intro v
    rw [viewOrder_update]
    have hkeys : v ∈ CursorMap.keys
        (updateCursorPosition q viewId part x y width height)._cursorPositions
        ↔ v = viewId ∨ v ∈ CursorMap.keys q._cursorPositions := by
      cases hf : CursorMap.find q._cursorPositions viewId with
      | none =>
        simp only [updateCursorPosition, hf]
        rw [(CursorMap.keys_insertNew_perm _ _ _).mem_iff, List.mem_cons]
      | some c =>
        have hk : viewId ∈ CursorMap.keys q._cursorPositions := by
          by_contra hn
          rw [(CursorMap.find_eq_none_iff _ _).mpr hn] at hf
          exact Option.noConfusion hf
        simp only [updateCursorPosition, hf]
        rw [CursorMap.keys_assign]
        constructor
        · exact Or.inr
        · rintro (c | c)
          · exact c ▸ hk
          · exact c
    rw [hkeys, List.mem_cons, hnd.mem_erase_iff, hiff v]
    by_cases hv : v = viewId
    · simp [hv]
    · simp [hv]

theorem wellFormed_remove (q : TileQueue) (viewId : Int) (h : WellFormed q) :
    WellFormed (removeCursorPosition q viewId) := by
  obtain ⟨hnd, hs, hiff⟩ := h
  have hndk : (CursorMap.keys q._cursorPositions).Nodup := hs.imp (fun h => ne_of_lt h)
  refine ⟨?_, ?_, ?_⟩
  · rw [viewOrder_remove]
    exact hnd.erase viewId
  · rw [cursorPositions_remove, CursorMap.keys_erase]
    exact hs.sublist (List.erase_sublist _ _)
  · intro v
    rw [viewOrder_remove, cursorPositions_remove, CursorMap.keys_erase,
      hnd.mem_erase_iff, hndk.mem_erase_iff, hiff v]

theorem wellFormed_runCalls (calls : List CursorCall) (q : TileQueue) (h : WellFormed q) :
    WellFormed (runCalls q calls) := by
  induction calls generalizing q with
  | nil => exact h
  | cons c rest ih =>
    cases c with
    | update viewId part x y width height =>
      exact ih _ (wellFormed_update q viewId part x y width height h)
    | remove viewId => exact ih _ (wellFormed_remove q viewId h)

theorem wellFormed_reached (calls : List CursorCall) : WellFormed (reached calls) :=
  wellFormed_runCalls calls empty wellFormed_empty

end TileQueue

/-! ## Claims on the cursor tracking -/

namespace TileQueue

/-- C1: in every state reached from the empty queue by update / remove calls,
after `updateCursorPosition(viewId, ...)` the view order starts with `viewId`
and contains `viewId` exactly once. -/
theorem C1_update_front_exactly_once (calls : List CursorCall)
    (viewId part x y width height : Int) :
    (updateCursorPosition (reached calls) viewId part x y width height)._viewOrder.head?
        = some viewId ∧
      (updateCursorPosition (reached calls) viewId part x y width height)._viewOrder.count viewId
        = 1 := by
  have hwf := wellFormed_update (reached calls) viewId part x y width height
    (wellFormed_reached calls)
  refine ⟨?_, ?_⟩
  · rw [viewOrder_update]; rfl
  · refine List.count_eq_one_of_mem hwf.1 ?_
    rw [viewOrder_update]
    exact List.mem_cons_self _ _

/-- C2: in every state, after `updateCursorPosition(viewId, part, x, y, width,
height)` the map holds exactly that rectangle for `viewId`, and looking up any
other view id gives what it gave before the call. -/
theorem C2_update_upserts_cursor (q : TileQueue) (viewId part x y width height : Int) :
    CursorMap.find (updateCursorPosition q viewId part x y width height)._cursorPositions viewId
        = some { Part := part, X := x, Y := y, Width := width, Height := height } ∧
      ∀ other : Int, other ≠ viewId →
        CursorMap.find (updateCursorPosition q viewId part x y width height)._cursorPositions other
          = CursorMap.find q._cursorPositions other :=
  ⟨find_update_self q viewId part x y width height,
    fun other h => find_update_other q viewId part x y width height other h⟩

/-- C3: in every state reached from the empty queue by update / remove calls,
after `removeCursorPosition(viewId)` the id is nowhere in the view order and
has no entry in the cursor-position map, so a scan of the view order never
visits it. -/
theorem C3_remove_untracks_view (calls : List CursorCall) (viewId : Int) :
    viewId ∉ (removeCursorPosition (reached calls) viewId)._viewOrder ∧
      CursorMap.find (removeCursorPosition (reached calls) viewId)._cursorPositions viewId
        = none ∧
      ∀ view ∈ (removeCursorPosition (reached calls) viewId)._viewOrder, view ≠ viewId := by
  have hwf := wellFormed_reached calls
  have hnot : viewId ∉ (removeCursorPosition (reached calls) viewId)._viewOrder := by
    rw [viewOrder_remove]
    intro hm
    exact ((hwf.1.mem_erase_iff).mp hm).1 rfl
  refine ⟨hnot, ?_, ?_⟩
  · rw [CursorMap.find_eq_none_iff]
    intro hk
    exact hnot (((wellFormed_remove _ viewId hwf).2.2 viewId).mp hk)
  · intro view hview heq
    exact hnot (heq ▸ hview)

/-- C4: when `viewId` is neither in the view order nor in the cursor-position
map, `removeCursorPosition(viewId)` returns the state it was given: view
order, map and queued payloads are all unchanged. -/
theorem C4_remove_absent_is_noop (q : TileQueue) (viewId : Int)
    (hview : viewId ∉ q._viewOrder)
    (hcursor : CursorMap.find q._cursorPositions viewId = none) :
    removeCursorPosition q viewId = q := by
  have hk := (CursorMap.find_eq_none_iff _ _).mp hcursor
  simp [removeCursorPosition, hview, CursorMap.erase_of_not_mem _ _ hk]

/-- Worked instance of C4: view 7 was never tracked in a state that tracks
views 1 and 2, and removing it returns that state. -/
theorem C4_remove_absent_is_noop_witness :
    (7 : Int) ∉ (reached [.update 1 0 0 0 5 5, .update 2 0 1 1 5 5])._viewOrder ∧
      CursorMap.find (reached [.update 1 0 0 0 5 5, .update 2 0 1 1 5 5])._cursorPositions 7
        = none ∧
      removeCursorPosition (reached [.update 1 0 0 0 5 5, .update 2 0 1 1 5 5]) 7
        = reached [.update 1 0 0 0 5 5, .update 2 0 1 1 5 5] :=
  ⟨by decide, by decide,
    C4_remove_absent_is_noop (reached [.update 1 0 0 0 5 5, .update 2 0 1 1 5 5]) 7
      (by decide) (by decide)⟩

/-- C5: the view order never holds a view id twice: this is so in the empty
queue, both operations keep it so in whatever state they are called, and hence
it is so in every state reached from the empty queue by update / remove
calls. -/
theorem C5_viewOrder_nodup (calls : List CursorCall) :
    empty._viewOrder.Nodup ∧
      (∀ (q : TileQueue) (viewId part x y width height : Int), q._viewOrder.Nodup →
        (updateCursorPosition q viewId part x y width height)._viewOrder.Nodup) ∧
      (∀ (q : TileQueue) (viewId : Int), q._viewOrder.Nodup →
        (removeCursorPosition q viewId)._viewOrder.Nodup) ∧
      (reached calls)._viewOrder.Nodup := by
  refine ⟨by simp [empty], ?_, ?_, (wellFormed_reached calls).1⟩
  · intro q viewId part x y width height hnd
    rw [viewOrder_update]
    refine List.nodup_cons.mpr ⟨?_, hnd.erase viewId⟩
    intro hm
    exact ((hnd.mem_erase_iff).mp hm).1 rfl
  · intro q viewId hnd
    rw [viewOrder_remove]
    exact hnd.erase viewId

/-- C6: in every state reached from the empty queue by update / remove calls,
a view id has an entry in the cursor-position map exactly when it is in the
view order, and the map has as many entries as the view order has elements. -/
theorem C6_map_consistent_with_viewOrder (calls : List CursorCall) :
    (∀ view : Int, CursorMap.find (reached calls)._cursorPositions view ≠ none
        ↔ view ∈ (reached calls)._viewOrder) ∧
      (reached calls)._viewOrder.length = (reached calls)._cursorPositions.length := by
  obtain ⟨hnd, hs, hiff⟩ := wellFormed_reached calls
  have hndk : (CursorMap.keys (reached calls)._cursorPositions).Nodup :=
    hs.imp (fun h => ne_of_lt h)
  refine ⟨?_, ?_⟩
  · intro view
    rw [Ne, CursorMap.find_eq_none_iff, not_not]
    exact hiff view
  · have hperm : (CursorMap.keys (reached calls)._cursorPositions).Perm
        (reached calls)._viewOrder := (List.perm_ext_iff_of_nodup hndk hnd).mpr hiff
    have hlen := hperm.length_eq
    simp only [CursorMap.keys, List.length_map] at hlen
    exact hlen.symm

/-- C7: in every state reached from the empty queue by update / remove calls,
for distinct views A and B, `updateCursorPosition` for A and then for B leaves
B first in the view order and A right after it, and neither occurs again
further back. -/
theorem C7_later_update_is_most_recent (calls : List CursorCall)
    (viewA partA xA yA widthA heightA viewB partB xB yB widthB heightB : Int)
    (hAB : viewA ≠ viewB) :
    (updateCursorPosition (updateCursorPosition (reached calls) viewA partA xA yA widthA heightA)
        viewB partB xB yB widthB heightB)._viewOrder
      = viewB :: viewA :: (((reached calls)._viewOrder.erase viewA).erase viewB) ∧
    viewA ∉ ((reached calls)._viewOrder.erase viewA).erase viewB ∧
    viewB ∉ ((reached calls)._viewOrder.erase viewA).erase viewB := by
  have hnd := (wellFormed_reached calls).1
  have hndA := hnd.erase viewA
  refine ⟨?_, ?_, ?_⟩
  · rw [viewOrder_update, viewOrder_update]
    have : ¬ (viewA == viewB) = true := by simpa using hAB
    rw [List.erase_cons_tail this]
  · intro hm
    have h1 := ((hndA.mem_erase_iff).mp hm).2
    exact ((hnd.mem_erase_iff).mp h1).1 rfl
  · intro hm
    exact ((hndA.mem_erase_iff).mp hm).1 rfl

/-- Worked instance of C7: views 2, 3, 1 are tracked, then view 1 and after it
view 2 report a cursor; the order becomes 2, 1, 3. -/
theorem C7_later_update_is_most_recent_witness :
    (1 : Int) ≠ 2 ∧
    ((updateCursorPosition (updateCursorPosition
        (reached [.update 2 0 0 0 5 5, .update 3 0 1 1 5 5, .update 1 0 4 4 5 5])
        1 0 0 0 50 50) 2 0 60 60 50 50)._viewOrder
      = 2 :: 1 :: (((reached [.update 2 0 0 0 5 5, .update 3 0 1 1 5 5,
          .update 1 0 4 4 5 5])._viewOrder.erase 1).erase 2) ∧
    (1 : Int) ∉ ((reached [.update 2 0 0 0 5 5, .update 3 0 1 1 5 5,
          .update 1 0 4 4 5 5])._viewOrder.erase 1).erase 2 ∧
    (2 : Int) ∉ ((reached [.update 2 0 0 0 5 5, .update 3 0 1 1 5 5,
          .update 1 0 4 4 5 5])._viewOrder.erase 1).erase 2) :=
  ⟨by decide, C7_later_update_is_most_recent
    [.update 2 0 0 0 5 5, .update 3 0 1 1 5 5, .update 1 0 4 4 5 5]
    1 0 0 0 50 50 2 0 60 60 50 50 (by decide)⟩

end TileQueue

/-! ## Insertion and removal hooks -/

namespace TileQueue

theorem findIdx_append_hit (p : Payload → Bool) (older : List Payload) (msg : Payload)
    (newer : List Payload) (holder : ∀ old ∈ older, p old = false) (hmsg : p msg = true) :
    (older ++ msg :: newer).findIdx? p = some older.length := by
  induction older with
  | nil => simp [List.findIdx?_cons, hmsg]
  | cons b t ih =>
    have hb : p b = false := holder b (List.mem_cons_self _ _)
    have := ih (fun old hold => holder old (List.mem_cons_of_mem _ hold))
    simp [List.findIdx?_cons, hb, this]

theorem get_append_length (older : List Payload) (msg : Payload) (newer : List Payload) :
    (older ++ msg :: newer).get? older.length = some msg := by
  induction older with
  | nil => simp
  | cons b t ih => simpa using ih

theorem eraseIdx_append_length (older : List Payload) (msg : Payload) (newer : List Payload) :
    (older ++ msg :: newer).eraseIdx older.length = older ++ newer := by
  induction older with
  | nil => simp
  | cons b t ih => simpa using ih

/-- The priority scan finds nothing when no queued message underlies a cursor. -/
theorem prioritized_none_of_no_priority (tileKey : Payload → Option TileKey)
    (regionMatch : TileKey → CursorPosition → Bool) (q : TileQueue) (views : List Int)
    (h : ∀ view ∈ views, ∀ c, CursorMap.find q._cursorPositions view = some c →
      ∀ msg ∈ q._queue, underlies tileKey regionMatch c msg = false) :
    prioritized tileKey regionMatch q views = none := by
  induction views with
  | nil => rfl
  | cons view rest ih =>
    have ih' := ih (fun v hv => h v (List.mem_cons_of_mem _ hv))
    cases hf : CursorMap.find q._cursorPositions view with
    | none => simp only [prioritized, hf]; exact ih'
    | some c =>
      have hnone : q._queue.findIdx? (underlies tileKey regionMatch c) = none :=
        List.findIdx?_eq_none_iff.mpr (h view (List.mem_cons_self _ _) c hf)
      simp only [prioritized, hf, hnone]
      exact ih'

theorem priority_eq_false_iff (tileKey : Payload → Option TileKey)
    (regionMatch : TileKey → CursorPosition → Bool) (q : TileQueue) (msg : Payload) :
    priority tileKey regionMatch q msg = false ↔
      ∀ view ∈ q._viewOrder, ∀ c, CursorMap.find q._cursorPositions view = some c →
        underlies tileKey regionMatch c msg = false := by
  unfold priority
  rw [List.any_eq_false]
  constructor
  · intro h view hview c hc
    have := h view hview
    simpa [hc] using this
  · intro h view hview
    cases hc : CursorMap.find q._cursorPositions view with
    | none => simp
    | some c => simpa using h view hview c hc

theorem putAll_non_tile (tileKey : Payload → Option TileKey) (values : List Payload)
    (q : TileQueue) (h : ∀ p ∈ values, tileKey p = none) :
    putAll tileKey q values = { q with _queue := q._queue ++ values } := by
  induction values generalizing q with
  | nil => simp [putAll]
  | cons v rest ih =>
    have hv : tileKey v = none := h v (List.mem_cons_self _ _)
    have hrest := ih (put tileKey q v) (fun p hp => h p (List.mem_cons_of_mem _ hp))
    simp only [putAll, List.foldl_cons] at hrest ⊢
    rw [hrest]
    simp [put, put_impl, hv, MessageQueue.put_impl]

theorem get_non_tile (tileKey : Payload → Option TileKey)
    (regionMatch : TileKey → CursorPosition → Bool) (q : TileQueue) (front : Payload)
    (rest : List Payload) (hq : q._queue = front :: rest)
    (h : ∀ p ∈ q._queue, tileKey p = none) :
    get tileKey regionMatch q = some (front, { q with _queue := rest }) := by
  have hany : (q._queue.any fun p => (tileKey p).isSome) = false := by
    rw [List.any_eq_false]
    intro p hp
    simp [h p hp]
  simp only [get, get_impl, hany]
  simp [hq]

theorem getN_non_tile (tileKey : Payload → Option TileKey)
    (regionMatch : TileKey → CursorPosition → Bool) (values : List Payload) (q : TileQueue)
    (hq : q._queue = values) (h : ∀ p ∈ values, tileKey p = none) :
    getN tileKey regionMatch values.length q = some (values, { q with _queue := [] }) := by
  induction values generalizing q with
  | nil => simp [getN, ← hq]
  | cons v rest ih =>
    have hget := get_non_tile tileKey regionMatch q v rest hq (by rw [hq]; exact h)
    have hrest := ih { q with _queue := rest } rfl (fun p hp => h p (List.mem_cons_of_mem _ hp))
    simp only [List.length_cons, getN, hget, hrest]

end TileQueue

namespace MessageQueue

theorem putAll_queue (values : List Payload) (q : MessageQueue) :
    putAll q values = { _queue := q._queue ++ values } := by
  induction values generalizing q with
  | nil => simp [putAll]
  | cons v rest ih =>
    have hrest := ih (put q v)
    simp only [putAll, List.foldl_cons] at hrest ⊢
    rw [hrest]
    simp [put, put_impl]

theorem getN_queue (values : List Payload) :
    getN values.length { _queue := values } = some (values, { _queue := [] }) := by
  induction values with
  | nil => simp [getN]
  | cons v rest ih => simp [getN, get, get_impl, ih]

end MessageQueue

/-! ## Claims on insertion and removal -/

namespace TileQueue

/-- C8 (dedup): after `put(m)` of a tile-update payload `m` the queue is the
old queue without the tile-update messages that have the key of `m`, followed
by `m`: no earlier message has that key, `m` is last, the others keep their
order. Putting two tile-update messages with one key leaves, for that key,
exactly the second. -/
theorem C8_put_replaces_same_key_tile (tileKey : Payload → Option TileKey) (q : TileQueue)
    (m : Payload) (key : TileKey) (hm : tileKey m = some key) :
    (put tileKey q m)._queue
        = q._queue.filter (fun old => decide (tileKey old ≠ some key)) ++ [m] ∧
      (∀ old ∈ (put tileKey q m)._queue.dropLast, tileKey old ≠ some key) ∧
      (put tileKey q m)._queue.getLast? = some m ∧
      ∀ first : Payload, tileKey first = some key →
        (put tileKey (put tileKey q first) m)._queue.filter
          (fun p => decide (tileKey p = some key)) = [m] := by
  have hput : ∀ (s : TileQueue) (v : Payload), tileKey v = some key →
      (put tileKey s v)._queue
        = s._queue.filter (fun old => decide (tileKey old ≠ some key)) ++ [v] := by
    intro s v hv
    simp [put, put_impl, removeDuplicate, hv, MessageQueue.put_impl]
  refine ⟨hput q m hm, ?_, ?_, ?_⟩
  · intro old hold
    rw [hput q m hm, List.dropLast_concat] at hold
    simpa using (List.mem_filter.mp hold).2
  · rw [hput q m hm]
    simp
  · intro first hfirst
    rw [hput _ m hm, hput q first hfirst]
    simp [List.filter_append, List.filter_filter, hm, hfirst]

/-- Worked instance of C8, the scenario of the spec: two tile-update messages
for view 1, part 0, region (0, 0, 100, 100) that differ in their tail. -/
theorem C8_put_replaces_same_key_tile_witness :
    sampleTileKey [116, 1, 0, 0, 0, 100, 100, 2] = some ⟨1, 0, 0, 0, 100, 100⟩ ∧
    ((put sampleTileKey (put sampleTileKey empty [116, 1, 0, 0, 0, 100, 100, 1])
        [116, 1, 0, 0, 0, 100, 100, 2])._queue
        = (put sampleTileKey empty [116, 1, 0, 0, 0, 100, 100, 1])._queue.filter
            (fun old => decide (sampleTileKey old ≠ some ⟨1, 0, 0, 0, 100, 100⟩))
          ++ [[116, 1, 0, 0, 0, 100, 100, 2]] ∧
      (∀ old ∈ (put sampleTileKey (put sampleTileKey empty [116, 1, 0, 0, 0, 100, 100, 1])
        [116, 1, 0, 0, 0, 100, 100, 2])._queue.dropLast,
          sampleTileKey old ≠ some ⟨1, 0, 0, 0, 100, 100⟩) ∧
      (put sampleTileKey (put sampleTileKey empty [116, 1, 0, 0, 0, 100, 100, 1])
        [116, 1, 0, 0, 0, 100, 100, 2])._queue.getLast?
          = some [116, 1, 0, 0, 0, 100, 100, 2] ∧
      ∀ first : Payload, sampleTileKey first = some ⟨1, 0, 0, 0, 100, 100⟩ →
        (put sampleTileKey (put sampleTileKey
            (put sampleTileKey empty [116, 1, 0, 0, 0, 100, 100, 1]) first)
          [116, 1, 0, 0, 0, 100, 100, 2])._queue.filter
          (fun p => decide (sampleTileKey p = some ⟨1, 0, 0, 0, 100, 100⟩))
          = [[116, 1, 0, 0, 0, 100, 100, 2]]) :=
  ⟨by decide, C8_put_replaces_same_key_tile sampleTileKey
    (put sampleTileKey empty [116, 1, 0, 0, 0, 100, 100, 1])
    [116, 1, 0, 0, 0, 100, 100, 2] ⟨1, 0, 0, 0, 100, 100⟩ (by decide)⟩

/-- C9 (priority): once `updateCursorPosition(A, part, x, y, w, h)` has made A
most recently active, if the queue holds messages that underlie no tracked
cursor followed by a tile-update message matching the rectangle of A, `get`
returns that message and leaves the earlier ones queued. And `get` on a
non-empty queue none of whose messages underlies a tracked cursor returns the
head. -/
theorem C9_get_prefers_cursor_tile (tileKey : Payload → Option TileKey)
    (regionMatch : TileKey → CursorPosition → Bool) :
    (∀ (q : TileQueue) (viewA part x y width height : Int) (older : List Payload)
        (msgA : Payload) (newer : List Payload) (keyA : TileKey),
      q._queue = older ++ msgA :: newer →
      tileKey msgA = some keyA →
      regionMatch keyA ⟨part, x, y, width, height⟩ = true →
      (∀ old ∈ older, priority tileKey regionMatch
        (updateCursorPosition q viewA part x y width height) old = false) →
      get tileKey regionMatch (updateCursorPosition q viewA part x y width height)
        = some (msgA, { updateCursorPosition q viewA part x y width height with
            _queue := older ++ newer })) ∧
    (∀ (q : TileQueue) (front : Payload) (rest : List Payload),
      q._queue = front :: rest →
      (∀ msg ∈ q._queue, priority tileKey regionMatch q msg = false) →
      get tileKey regionMatch q = some (front, { q with _queue := rest })) := by
  constructor
  · intro q viewA part x y width height older msgA newer keyA hq hkey hmatch holder
    have hvo := viewOrder_update q viewA part x y width height
    have hfind := find_update_self q viewA part x y width height
    have hq' : (updateCursorPosition q viewA part x y width height)._queue
        = older ++ msgA :: newer := hq
    have hmsg : underlies tileKey regionMatch ⟨part, x, y, width, height⟩ msgA = true := by
      simp [underlies, hkey, hmatch]
    have hold : ∀ old ∈ older,
        underlies tileKey regionMatch ⟨part, x, y, width, height⟩ old = false := by
      intro old ho
      exact (priority_eq_false_iff tileKey regionMatch _ old).mp (holder old ho) viewA
        (by rw [hvo]; exact List.mem_cons_self _ _) _ hfind
    have hidx := findIdx_append_hit (underlies tileKey regionMatch ⟨part, x, y, width, height⟩)
      older msgA newer hold hmsg
    have hprio : prioritized tileKey regionMatch
        (updateCursorPosition q viewA part x y width height)
        (updateCursorPosition q viewA part x y width height)._viewOrder
        = some older.length := by
      rw [hvo]
      simp only [prioritized, hfind, hq', hidx]
    have hany : ((updateCursorPosition q viewA part x y width height)._queue.any
        fun p => (tileKey p).isSome) = true := by
      rw [hq', List.any_eq_true]
      exact ⟨msgA, by simp, by simp [hkey]⟩
    have hempty : (updateCursorPosition q viewA part x y width height)._queue.isEmpty
        = false := by
      rw [hq']; cases older <;> rfl
    simp only [get, hempty, get_impl, hany, hprio]
    rw [hq']
    cases older with
    | nil => simp
    | cons b t =>
      have h1 := get_append_length (b :: t) msgA newer
      have h2 := eraseIdx_append_length (b :: t) msgA newer
      simp only [h1, h2]
      simp
  · intro q front rest hq hnone
    have hprio : prioritized tileKey regionMatch q q._viewOrder = none := by
      apply prioritized_none_of_no_priority
      intro view hview c hc msg hmsg
      exact (priority_eq_false_iff tileKey regionMatch q msg).mp (hnone msg hmsg) view hview c hc
    simp only [get, get_impl, hprio]
    simp [hq]

/-- Worked instance of C9, the scenario of the spec: view 1 reports its cursor
at part 0, (0, 0, 50, 50); the queue holds a tile for (100, 100, 50, 50) and
behind it a tile for (0, 0, 50, 50), which `get` returns first. With a cursor
nowhere near the queued tiles, `get` returns the head. -/
theorem C9_get_prefers_cursor_tile_witness :
    get sampleTileKey sameRegion
        (updateCursorPosition
          { _queue := [[116, 1, 0, 100, 100, 50, 50], [116, 1, 0, 0, 0, 50, 50]],
            _cursorPositions := [], _viewOrder := [] } 1 0 0 0 50 50)
      = some ([116, 1, 0, 0, 0, 50, 50],
          { _queue := [[116, 1, 0, 100, 100, 50, 50]],
            _cursorPositions := [(1, ⟨0, 0, 0, 50, 50⟩)], _viewOrder := [1] }) ∧
    get sampleTileKey sameRegion
        { _queue := [[116, 1, 0, 100, 100, 50, 50], [99], [116, 1, 0, 0, 0, 50, 50]],
          _cursorPositions := [(1, ⟨0, 7, 7, 50, 50⟩)], _viewOrder := [1] }
      = some ([116, 1, 0, 100, 100, 50, 50],
          { _queue := [[99], [116, 1, 0, 0, 0, 50, 50]],
            _cursorPositions := [(1, ⟨0, 7, 7, 50, 50⟩)], _viewOrder := [1] }) :=
  ⟨(C9_get_prefers_cursor_tile sampleTileKey sameRegion).1
      { _queue := [[116, 1, 0, 100, 100, 50, 50], [116, 1, 0, 0, 0, 50, 50]],
        _cursorPositions := [], _viewOrder := [] } 1 0 0 0 50 50
      [[116, 1, 0, 100, 100, 50, 50]] [116, 1, 0, 0, 0, 50, 50] [] ⟨1, 0, 0, 0, 50, 50⟩
      rfl (by decide) (by decide) (by decide),
    (C9_get_prefers_cursor_tile sampleTileKey sameRegion).2
      { _queue := [[116, 1, 0, 100, 100, 50, 50], [99], [116, 1, 0, 0, 0, 50, 50]],
        _cursorPositions := [(1, ⟨0, 7, 7, 50, 50⟩)], _viewOrder := [1] }
      [116, 1, 0, 100, 100, 50, 50] [[99], [116, 1, 0, 0, 0, 50, 50]] rfl (by decide)⟩

/-- C10 (FIFO): payloads none of which is a tile-update message, put in order
into a queue with empty storage and no cursor update in between, come back
from as many `get` calls in insertion order, unchanged, leaving the queue as it
was; the same holds for the base `MessageQueue`. -/
theorem C10_fifo_without_tiles (tileKey : Payload → Option TileKey)
    (regionMatch : TileKey → CursorPosition → Bool) (q : TileQueue) (values : List Payload)
    (hq : q._queue = []) (hvalues : ∀ p ∈ values, tileKey p = none) :
    getN tileKey regionMatch values.length (putAll tileKey q values) = some (values, q) ∧
      MessageQueue.getN values.length (MessageQueue.putAll { _queue := [] } values)
        = some (values, { _queue := [] }) := by
  constructor
  · rw [putAll_non_tile tileKey values q hvalues]
    have h := getN_non_tile tileKey regionMatch values
      { q with _queue := q._queue ++ values } (by simp [hq]) hvalues
    rw [h]
    obtain ⟨⟨queue⟩, cursorPositions, viewOrder⟩ := q
    simp only at hq
    subst hq
    rfl
  · rw [MessageQueue.putAll_queue]
    simpa using MessageQueue.getN_queue values

/-- Worked instance of C10: three non-tile payloads through a queue that
tracks a cursor for view 1. -/
theorem C10_fifo_without_tiles_witness :
    ({ _queue := [], _cursorPositions := [(1, ⟨0, 0, 0, 50, 50⟩)], _viewOrder := [1] }
        : TileQueue)._queue = [] ∧
    (∀ p ∈ ([[1, 2], [], [116, 3]] : List Payload), sampleTileKey p = none) ∧
    (getN sampleTileKey sameRegion ([[1, 2], [], [116, 3]] : List Payload).length
        (putAll sampleTileKey
          { _queue := [], _cursorPositions := [(1, ⟨0, 0, 0, 50, 50⟩)], _viewOrder := [1] }
          [[1, 2], [], [116, 3]])
        = some ([[1, 2], [], [116, 3]],
          { _queue := [], _cursorPositions := [(1, ⟨0, 0, 0, 50, 50⟩)], _viewOrder := [1] }) ∧
      MessageQueue.getN ([[1, 2], [], [116, 3]] : List Payload).length
          (MessageQueue.putAll { _queue := [] } [[1, 2], [], [116, 3]])
        = some ([[1, 2], [], [116, 3]], { _queue := [] })) :=
  ⟨rfl, by decide, C10_fifo_without_tiles sampleTileKey sameRegion
    { _queue := [], _cursorPositions := [(1, ⟨0, 0, 0, 50, 50⟩)], _viewOrder := [1] }
    [[1, 2], [], [116, 3]] rfl (by decide)⟩

end TileQueue

/-! ## Frame and algebraic lemmas -/

namespace CursorMap

theorem assign_of_find_some (m : CursorMap) (k : Int) (v : CursorPosition)
    (h : find m k = some v) : assign m k v = m := by
  induction m with
  | nil => rfl
  | cons e rest ih =>
    obtain ⟨k', v'⟩ := e
    by_cases hk : k' = k
    · have hv : v' = v := by simpa [find, hk] using h
      simp [assign, hk, hv]
    · have hr : find rest k = some v := by simpa [find, hk] using h
      simp [assign, hk, ih hr]

theorem erase_insertNew (m : CursorMap) (k : Int) (v : CursorPosition) (h : k ∉ keys m) :
    erase (insertNew m k v) k = m := by
  induction m with
  | nil => simp [insertNew, erase]
  | cons e rest ih =>
    obtain ⟨k', v'⟩ := e
    have h1 : ¬ k = k' ∧ k ∉ keys rest := by simpa [keys] using h
    have hk : ¬ k' = k := fun c => h1.1 c.symm
    by_cases hlt : k < k'
    · simp [insertNew, erase, hlt]
    · simp [insertNew, erase, hlt, hk, ih h1.2]

end CursorMap

namespace TileQueue

theorem filter_ne_erase (l : List Int) (v : Int) :
    (l.erase v).filter (fun u => decide (u ≠ v)) = l.filter (fun u => decide (u ≠ v)) := by
  induction l with
  | nil => simp
  | cons a t ih =>
    by_cases h : a = v
    · subst h; simp
    · have hbeq : ¬ (a == v) = true := by simpa using h
      rw [List.erase_cons_tail hbeq]
      simpa [List.filter_cons, h] using ih

theorem pair_sublist_filter_iff (l : List Int) (u w : Int) (p : Int → Bool)
    (hu : p u = true) (hw : p w = true) :
    [u, w].Sublist (l.filter p) ↔ [u, w].Sublist l := by
  constructor
  · intro h
    exact h.trans (List.filter_sublist l)
  · intro h
    have := h.filter p
    simpa [List.filter_cons, hu, hw] using this

theorem pair_sublist_congr (l₁ l₂ : List Int) (v u w : Int) (hu : u ≠ v) (hw : w ≠ v)
    (h : l₁.filter (fun a => decide (a ≠ v)) = l₂.filter (fun a => decide (a ≠ v))) :
    [u, w].Sublist l₁ ↔ [u, w].Sublist l₂ := by
  have hu' : (fun a => decide (a ≠ v)) u = true := by simpa using hu
  have hw' : (fun a => decide (a ≠ v)) w = true := by simpa using hw
  rw [← pair_sublist_filter_iff l₁ u w (fun a => decide (a ≠ v)) hu' hw',
    ← pair_sublist_filter_iff l₂ u w (fun a => decide (a ≠ v)) hu' hw', h]

end TileQueue

/-! ## Claims on bulk removal, frames and algebraic laws -/

namespace MessageQueue

/-- C11: after `remove_if(pred)` no queued payload satisfies `pred`, and the
queue is the old queue with exactly the satisfying payloads left out: it is a
subsequence of the old content, in the old order, and every subsequence of the
old content free of satisfying payloads is still a subsequence of it. -/
theorem C11_remove_if_keeps_the_rest (q : MessageQueue) (pred : Payload → Bool) :
    (∀ p ∈ (remove_if q pred)._queue, pred p = false) ∧
      (remove_if q pred)._queue = q._queue.filter (fun p => !pred p) ∧
      (remove_if q pred)._queue.Sublist q._queue ∧
      ∀ kept : List Payload, kept.Sublist q._queue → (∀ p ∈ kept, pred p = false) →
        kept.Sublist (remove_if q pred)._queue := by
  refine ⟨?_, rfl, List.filter_sublist _, ?_⟩
  · intro p hp
    have := (List.mem_filter.mp hp).2
    simpa using this
  · intro kept hsub hkept
    have hf := hsub.filter (fun p => !pred p)
    have hid : kept.filter (fun p => !pred p) = kept := by
      rw [List.filter_eq_self]
      intro p hp
      simp [hkept p hp]
    rw [hid] at hf
    exact hf

end MessageQueue

namespace TileQueue

theorem eq_of_members (a b : TileQueue) (hqueue : a._queue = b._queue)
    (hcursor : a._cursorPositions = b._cursorPositions) (hview : a._viewOrder = b._viewOrder) :
    a = b := by
  obtain ⟨⟨qa⟩, ca, va⟩ := a
  obtain ⟨⟨qb⟩, cb, vb⟩ := b
  simp only at hqueue hcursor hview
  subst hqueue hcursor hview
  rfl

/-- C13 fails as stated: views 2 and then 1 report a cursor, so view 1 is at the
front; view 1 reports again and the second element is view 2, not the former
front. -/
theorem C13_same_view_counterexample :
    (reached [.update 2 0 0 0 5 5, .update 1 0 1 1 5 5])._viewOrder.head? = some 1 ∧
      (updateCursorPosition (reached [.update 2 0 0 0 5 5, .update 1 0 1 1 5 5])
        1 0 3 3 5 5)._viewOrder.get? 1 = some 2 ∧
      (updateCursorPosition (reached [.update 2 0 0 0 5 5, .update 1 0 1 1 5 5])
        1 0 3 3 5 5)._viewOrder.get? 1 ≠ some 1 := by
  decide

/-- C13 (amended): in a state whose view order is `front :: rest`, after
`updateCursorPosition(viewId, ...)` with `viewId` other than `front` the second
element of the view order is `front`; with `viewId` equal to `front` the view
order is what it was. -/
theorem C13_front_becomes_second (q : TileQueue) (front : Int) (rest : List Int)
    (viewId part x y width height : Int) (hq : q._viewOrder = front :: rest) :
    (viewId ≠ front →
        (updateCursorPosition q viewId part x y width height)._viewOrder.get? 1 = some front) ∧
      (viewId = front →
        (updateCursorPosition q viewId part x y width height)._viewOrder = q._viewOrder) := by
  constructor
  · intro hne
    have hbeq : ¬ (front == viewId) = true := by
      simpa using fun c : front = viewId => hne c.symm
    rw [viewOrder_update, hq, List.erase_cons_tail hbeq]
    rfl
  · intro heq
    subst heq
    rw [viewOrder_update, hq, List.erase_cons_head]

/-- Worked instance of C13 (amended): with view order 1, 2, a cursor report of
view 3 makes view 1 second, and a cursor report of view 1 changes nothing. -/
theorem C13_front_becomes_second_witness :
    (updateCursorPosition (reached [.update 2 0 0 0 5 5, .update 1 0 1 1 5 5])
        3 0 3 3 5 5)._viewOrder.get? 1 = some 1 ∧
      (updateCursorPosition (reached [.update 2 0 0 0 5 5, .update 1 0 1 1 5 5])
        1 0 3 3 5 5)._viewOrder
        = (reached [.update 2 0 0 0 5 5, .update 1 0 1 1 5 5])._viewOrder :=
  ⟨(C13_front_becomes_second (reached [.update 2 0 0 0 5 5, .update 1 0 1 1 5 5]) 1 [2]
      3 0 3 3 5 5 (by decide)).1 (by decide),
    (C13_front_becomes_second (reached [.update 2 0 0 0 5 5, .update 1 0 1 1 5 5]) 1 [2]
      1 0 3 3 5 5 (by decide)).2 rfl⟩

/-- C14: for views `u` and `w` other than `viewId`, both
`updateCursorPosition(viewId, ...)` and `removeCursorPosition(viewId)` leave
the view order with `viewId` filtered out as it was, keep the number of
occurrences of `u` and of `w`, and keep whether an occurrence of `u` comes
before an occurrence of `w`. -/
theorem C14_other_views_keep_their_order (q : TileQueue)
    (viewId part x y width height u w : Int) (hu : u ≠ viewId) (hw : w ≠ viewId) :
    ((updateCursorPosition q viewId part x y width height)._viewOrder.filter
          (fun a => decide (a ≠ viewId))
        = q._viewOrder.filter (fun a => decide (a ≠ viewId)) ∧
      (removeCursorPosition q viewId)._viewOrder.filter (fun a => decide (a ≠ viewId))
        = q._viewOrder.filter (fun a => decide (a ≠ viewId))) ∧
    ((updateCursorPosition q viewId part x y width height)._viewOrder.count u
        = q._viewOrder.count u ∧
      (updateCursorPosition q viewId part x y width height)._viewOrder.count w
        = q._viewOrder.count w ∧
      (removeCursorPosition q viewId)._viewOrder.count u = q._viewOrder.count u ∧
      (removeCursorPosition q viewId)._viewOrder.count w = q._viewOrder.count w) ∧
    (([u, w].Sublist (updateCursorPosition q viewId part x y width height)._viewOrder
        ↔ [u, w].Sublist q._viewOrder) ∧
      ([u, w].Sublist (removeCursorPosition q viewId)._viewOrder
        ↔ [u, w].Sublist q._viewOrder)) := by
  have hfu : (updateCursorPosition q viewId part x y width height)._viewOrder.filter
      (fun a => decide (a ≠ viewId)) = q._viewOrder.filter (fun a => decide (a ≠ viewId)) := by
    rw [viewOrder_update, ← filter_ne_erase q._viewOrder viewId]
    simp [List.filter_cons]
  have hfr : (removeCursorPosition q viewId)._viewOrder.filter (fun a => decide (a ≠ viewId))
      = q._viewOrder.filter (fun a => decide (a ≠ viewId)) := by
    rw [viewOrder_remove]
    exact filter_ne_erase q._viewOrder viewId
  have hcu : ∀ a : Int, a ≠ viewId →
      (updateCursorPosition q viewId part x y width height)._viewOrder.count a
        = q._viewOrder.count a := by
    intro a ha
    have hbeq : ¬ (viewId == a) = true := by
      simpa using fun c : viewId = a => ha c.symm
    rw [viewOrder_update, List.count_cons]
    simp only [hbeq, if_false, Nat.add_zero]
    exact List.count_erase_of_ne ha _
  have hcr : ∀ a : Int, a ≠ viewId →
      (removeCursorPosition q viewId)._viewOrder.count a = q._viewOrder.count a := by
    intro a ha
    rw [viewOrder_remove]
    exact List.count_erase_of_ne ha _
  exact ⟨⟨hfu, hfr⟩, ⟨hcu u hu, hcu w hw, hcr u hu, hcr w hw⟩,
    ⟨pair_sublist_congr _ _ viewId u w hu hw hfu, pair_sublist_congr _ _ viewId u w hu hw hfr⟩⟩

/-- Worked instance of C14: the view order is 1, 2, 3 (`sampleViews`) and view 2 reports a
cursor or is removed; views 1 and 3 stay, once each, 1 before 3. -/
theorem C14_other_views_keep_their_order_witness :
    (1 : Int) ≠ 2 ∧ (3 : Int) ≠ 2 ∧
    (((updateCursorPosition sampleViews 2 0 9 9 5 5)._viewOrder.filter
          (fun a => decide (a ≠ 2))
        = sampleViews._viewOrder.filter (fun a => decide (a ≠ 2)) ∧
      (removeCursorPosition sampleViews 2)._viewOrder.filter (fun a => decide (a ≠ 2))
        = sampleViews._viewOrder.filter (fun a => decide (a ≠ 2))) ∧
    ((updateCursorPosition sampleViews 2 0 9 9 5 5)._viewOrder.count 1
        = sampleViews._viewOrder.count 1 ∧
      (updateCursorPosition sampleViews 2 0 9 9 5 5)._viewOrder.count 3
        = sampleViews._viewOrder.count 3 ∧
      (removeCursorPosition sampleViews 2)._viewOrder.count 1
        = sampleViews._viewOrder.count 1 ∧
      (removeCursorPosition sampleViews 2)._viewOrder.count 3
        = sampleViews._viewOrder.count 3) ∧
    (([1, 3].Sublist (updateCursorPosition sampleViews 2 0 9 9 5 5)._viewOrder
        ↔ [1, 3].Sublist sampleViews._viewOrder) ∧
      ([1, 3].Sublist (removeCursorPosition sampleViews 2)._viewOrder
        ↔ [1, 3].Sublist sampleViews._viewOrder))) :=
  ⟨by decide, by decide,
    C14_other_views_keep_their_order sampleViews 2 0 9 9 5 5 1 3 (by decide) (by decide)⟩

/-- C15: `updateCursorPosition` is idempotent on every state, also one whose
view order has duplicates: a second call with the same arguments leaves view
order, cursor-position map and queue as the first call left them. -/
theorem C15_update_idempotent (q : TileQueue) (viewId part x y width height : Int) :
    updateCursorPosition (updateCursorPosition q viewId part x y width height)
        viewId part x y width height
      = updateCursorPosition q viewId part x y width height := by
  have hfind := find_update_self q viewId part x y width height
  apply eq_of_members
  · rfl
  · have hcursor : (updateCursorPosition (updateCursorPosition q viewId part x y width height)
          viewId part x y width height)._cursorPositions
        = CursorMap.assign (updateCursorPosition q viewId part x y width height)._cursorPositions
            viewId ⟨part, x, y, width, height⟩ := by
      generalize updateCursorPosition q viewId part x y width height = q₁ at hfind
      simp only [updateCursorPosition, hfind]
    rw [hcursor]
    exact CursorMap.assign_of_find_some _ _ _ hfind
  · rw [viewOrder_update, viewOrder_update, List.erase_cons_head]

/-- C16: in every state (so in every reachable one) in which `viewId` is in
neither the view order nor the cursor-position map,
`updateCursorPosition(viewId, ...)` followed by `removeCursorPosition(viewId)`
gives back the state it started from: view order, map and queue. -/
theorem C16_update_then_remove_restores (q : TileQueue) (viewId part x y width height : Int)
    (hview : viewId ∉ q._viewOrder)
    (hcursor : CursorMap.find q._cursorPositions viewId = none) :
    removeCursorPosition (updateCursorPosition q viewId part x y width height) viewId = q := by
  have hk := (CursorMap.find_eq_none_iff _ _).mp hcursor
  apply eq_of_members
  · rfl
  · rw [cursorPositions_remove]
    have hins : (updateCursorPosition q viewId part x y width height)._cursorPositions
        = CursorMap.insertNew q._cursorPositions viewId ⟨part, x, y, width, height⟩ := by
      simp only [updateCursorPosition, hcursor]
    rw [hins]
    exact CursorMap.erase_insertNew _ _ _ hk
  · rw [viewOrder_remove, viewOrder_update, List.erase_cons_head, List.erase_of_not_mem hview]

/-- Worked instance of C16: views 1 and 2 are tracked, view 7 is not; tracking
view 7 and removing it again gives back the state. -/
theorem C16_update_then_remove_restores_witness :
    (7 : Int) ∉ (reached [.update 1 0 0 0 5 5, .update 2 0 1 1 5 5])._viewOrder ∧
      CursorMap.find (reached [.update 1 0 0 0 5 5, .update 2 0 1 1 5 5])._cursorPositions 7
        = none ∧
      removeCursorPosition (updateCursorPosition
          (reached [.update 1 0 0 0 5 5, .update 2 0 1 1 5 5]) 7 0 4 4 5 5) 7
        = reached [.update 1 0 0 0 5 5, .update 2 0 1 1 5 5] :=
  ⟨by decide, by decide,
    C16_update_then_remove_restores (reached [.update 1 0 0 0 5 5, .update 2 0 1 1 5 5])
      7 0 4 4 5 5 (by decide) (by decide)⟩

/-- C17: `removeCursorPosition(viewId)` leaves the cursor rectangle of every
other view and the queued payloads as they were, and the view order it leaves
is the old one with at most one element taken out. -/
theorem C17_remove_touches_only_its_view (q : TileQueue) (viewId : Int) :
    (∀ other : Int, other ≠ viewId →
        CursorMap.find (removeCursorPosition q viewId)._cursorPositions other
          = CursorMap.find q._cursorPositions other) ∧
      (removeCursorPosition q viewId)._queue = q._queue ∧
      (removeCursorPosition q viewId)._viewOrder.Sublist q._viewOrder ∧
      q._viewOrder.length ≤ (removeCursorPosition q viewId)._viewOrder.length + 1 := by
  refine ⟨?_, rfl, ?_, ?_⟩
  · intro other hother
    rw [cursorPositions_remove]
    exact CursorMap.find_erase_other _ _ _ hother
  · rw [viewOrder_remove]
    exact List.erase_sublist _ _
  · rw [viewOrder_remove, List.length_erase]
    split <;> omega

end TileQueue

/-! ## Worked examples -/

example : (TileQueue.reached [.update 1 0 0 0 5 5, .update 2 0 1 1 5 5, .update 1 0 9 9 5 5])._viewOrder
    = [1, 2] := by decide
example : (TileQueue.reached [.update 3 0 0 0 5 5, .update 2 0 1 1 5 5, .update 1 0 9 9 5 5,
    .remove 2])._cursorPositions = [(1, ⟨0, 9, 9, 5, 5⟩), (3, ⟨0, 0, 0, 5, 5⟩)] := by decide

example : (TileQueue.put sampleTileKey
    (TileQueue.put sampleTileKey (TileQueue.put sampleTileKey TileQueue.empty
      [116, 1, 0, 0, 0, 100, 100, 1]) [104, 105]) [116, 1, 0, 0, 0, 100, 100, 2])._queue
    = [[104, 105], [116, 1, 0, 0, 0, 100, 100, 2]] := by decide
example : (TileQueue.get sampleTileKey sameRegion TileQueue.empty) = none := by decide
example : (TileQueue.removeCursorPosition
    (TileQueue.reached [.update 1 0 0 0 5 5, .update 2 0 1 1 5 5]) 1)._viewOrder = [2] := by
  decide

end MessageQueueModel
